import Mathlib

/-!
Verification of the composer-parser repository: a shallow embedding of
`src/composer_parser/composer_parser.py` (the strategy expression evaluator)
and of the per-day trading block of `run_backtest` in `src/backtester.py`
(the portfolio simulator), together with theorems settling the frozen claims.

Machine floats are modelled as exact rationals (ℚ); Python dicts are modelled
as insertion-ordered association lists, matching CPython's ordered-dict
semantics.  Fallible Python code (raised exceptions) is modelled with
`Except EvalErr`.  Recursion in `_evaluate_expression` is modelled with an
explicit fuel parameter; every terminating Python evaluation corresponds to
every sufficiently large fuel value.
-/

/-- A Python/JSON value as manipulated by the parser: numbers, strings,
lists, and string-keyed dicts (the only dict shape occurring in symphonies,
e.g. `{":window": 10}`).  Modelling boundary: symphony symbols and dict keys
are strings, and numeric strings passed to `float`/`int` are not modelled. -/
inductive LValue where
  | num : ℚ → LValue
  | str : String → LValue
  | list : List LValue → LValue
  | dict : List (String × LValue) → LValue

/-- Error raised during evaluation.  Python raises `ValueError` (and
occasionally `KeyError`/`IndexError`/`TypeError`); the constructors record
which raise-site fired so claims about error kinds are statable. -/
inductive EvalErr where
  | dataUnavailable : String → EvalErr
  | indicatorMissing : String → EvalErr
  | malformed : String → EvalErr
  | unknownOperator : String → EvalErr
  | unknownValueOperator : String → EvalErr
  | unknownComparison : String → EvalErr
  | typeError : String → EvalErr
  | indexError : String → EvalErr
  | keyError : String → EvalErr
  | fuelExhausted : EvalErr
deriving DecidableEq, Repr

/-- A portfolio dictionary `{symbol: weight}`: an insertion-ordered
association list, mirroring a Python dict (keys unique by construction). -/
abbrev Alist : Type := List (String × ℚ)

/-- First-match lookup, as Python `d[k]` / `k in d`. -/
def aget (m : Alist) (k : String) : Option ℚ :=
  match m with
  | [] => none
  | (k', v) :: rest => if k' = k then some v else aget rest k

/-- Python `d[k] = v`: replace in place if the key exists, else append. -/
def aset (m : Alist) (k : String) (v : ℚ) : Alist :=
  match m with
  | [] => [(k, v)]
  | (k', v') :: rest => if k' = k then (k, v) :: rest else (k', v') :: aset rest k v

/-- `if k in d: d[k] += v else: d[k] = v` (the accumulation step of
`weight-equal`, composer_parser.py lines 220-224). -/
def aadd (m : Alist) (k : String) (v : ℚ) : Alist :=
  match m with
  | [] => [(k, v)]
  | (k', v') :: rest => if k' = k then (k', v' + v) :: rest else (k', v') :: aadd rest k v

/-- `sum(d.values())`. -/
def asum (m : Alist) : ℚ :=
  (m.map Prod.snd).sum

/-- `{asset: weight / total for asset, weight in d.items()}`. -/
def normalizeBy (t : ℚ) (m : Alist) : Alist :=
  m.map (fun p => (p.1, p.2 / t))

/-- The keys of a portfolio dict, in insertion order. -/
def akeys (m : Alist) : List String :=
  m.map Prod.fst

/-- One row of a symbol's market-data frame at the evaluation date:
column name to value. -/
abbrev Row : Type := List (String × ℚ)

/-- Column lookup within a row (`col in data` / `data[col]`). -/
def rlookup (r : Row) (k : String) : Option ℚ :=
  match r with
  | [] => none
  | (k', v) :: rest => if k' = k then some v else rlookup rest k

/-- The market data visible at the fixed evaluation date: per symbol,
the as-of row of columns, or `none` when `_get_data_for_date` would raise
(symbol absent, empty frame, or no data on or before the date). -/
abbrev MarketData : Type := String → Option Row

/-- Lookup in a string-keyed Python dict value. -/
def dlookup (d : List (String × LValue)) (k : String) : Option LValue :=
  match d with
  | [] => none
  | (k', v) :: rest => if k' = k then some v else dlookup rest k

/-- Python `int()` on a rational: truncation toward zero. -/
def truncQ (q : ℚ) : Int :=
  if 0 ≤ q then q.floor else -((-q).floor)

/-- Python truthiness of the values that occur as expressions. -/
def falsy (v : LValue) : Bool :=
  match v with
  | .num q => q = 0
  | .str s => s = ""
  | .list l => l.isEmpty
  | .dict d => d.isEmpty

/-- `item == ':window'` and similar string comparisons on dynamic values. -/
def isStrEq (v : LValue) (s : String) : Bool :=
  match v with
  | .str s' => s' = s
  | _ => false

/-- `int(params.get(':window', default))` inside `_get_indicator_value`
(composer_parser.py lines 74, 81): `none` models the enclosing
`except Exception: return None` catching the `AttributeError` raised by
`.get` on a non-dict, or the failure of `int()` on a non-number. -/
def dictWindowOpt (p : LValue) (dflt : Int) : Option Int :=
  match p with
  | .dict entries =>
    match dlookup entries ":window" with
    | some (.num q) => some (truncQ q)
    | some _ => none
    | none => some dflt
  | _ => none

/-- `_get_indicator_value(symbol, indicator_type, indicator_params)`
(composer_parser.py lines 59-95): returns the indicator value or `None`;
every exception inside is swallowed to `None`. -/
def get_indicator_value (md : MarketData) (sym : String) (itype iparams : LValue) :
    Option ℚ :=
  match md sym with
  | none => none
  | some row =>
    match itype with
    | .str t =>
      if t = "rsi" then
        match dictWindowOpt iparams 10 with
        | none => none
        | some w => rlookup row ("RSI_" ++ toString w)
      else if t = "moving-average-price" then
        match dictWindowOpt iparams 20 with
        | none => none
        | some w => rlookup row ("MA_" ++ toString w)
      else if t = "current-price" then
        rlookup row "current_price"
      else none
    | _ => none

/-- The `:window` scan over a list-shaped params value in `_resolve_value`
(composer_parser.py lines 121-126 and 139-144): a `.error` models `int()`
raising on a non-number (uncaught by the `except (KeyError, IndexError)`). -/
def scanWindow (dflt : Int) : List LValue → Except EvalErr Int
  | a :: b :: rest =>
    if isStrEq a ":window" then
      match b with
      | .num q => .ok (truncQ q)
      | _ => .error (.typeError "int() on window value")
    else scanWindow dflt (b :: rest)
  | _ => .ok dflt

/-- Window extraction in `_resolve_value` for `moving-average-price`/`rsi`:
dict params via `.get`, list params via the index scan, anything else the
default. -/
def windowRV (params : LValue) (dflt : Int) : Except EvalErr Int :=
  match params with
  | .dict entries =>
    match dlookup entries ":window" with
    | some (.num q) => .ok (truncQ q)
    | some _ => .error (.typeError "int() on window value")
    | none => .ok dflt
  | .list l => scanWindow dflt l
  | _ => .ok dflt

/-- The shared `moving-average-price`/`rsi` body of `_resolve_value`
(composer_parser.py lines 116-150).  A missing `value_expression[1]`/`[2]`
is an `IndexError` re-raised as a malformed-expression `ValueError`; a
missing symbol in `market_data` is a `KeyError` re-raised the same way;
a missing indicator column raises the uncaught "Indicator not found"
`ValueError`. -/
def resolve_indicator (md : MarketData) (args : List LValue) (dflt : Int)
    (colBase : String) : Except EvalErr ℚ :=
  match args with
  | sym :: params :: _ =>
    match sym with
    | .str s => do
      let w ← windowRV params dflt
      let col := colBase ++ toString w
      match md s with
      | none => .error (.malformed "KeyError on market_data[symbol]")
      | some row =>
        match rlookup row col with
        | none => .error (.indicatorMissing col)
        | some v => .ok v
    | _ => .error (.malformed "KeyError on market_data[symbol]")
  | _ => .error (.malformed "IndexError on value expression")

/-- `_resolve_value(value_expression)` (composer_parser.py lines 97-155). -/
def resolve_value (md : MarketData) (e : LValue) : Except EvalErr ℚ :=
  match e with
  | .num q => .ok q
  | .str _ => .error (.typeError "float() on non-numeric")
  | .dict _ => .error (.typeError "float() on dict")
  | .list [] => .error (.indexError "value_expression[0]")
  | .list (op :: args) =>
    if isStrEq op "current-price" then
      match args with
      | sym :: _ =>
        match sym with
        | .str s =>
          match md s with
          | none => .error (.dataUnavailable s)
          | some row =>
            match rlookup row "Close" with
            | none => .error (.malformed "KeyError on Close")
            | some v => .ok v
        | _ => .error (.dataUnavailable "non-string symbol")
      | [] => .error (.malformed "IndexError on value expression")
    else if isStrEq op "moving-average-price" then
      resolve_indicator md args 20 "MA_"
    else if isStrEq op "rsi" then
      resolve_indicator md args 10 "RSI_"
    else
      .error (.unknownValueOperator "unknown value operator")

/-- `_evaluate_condition(condition)` (composer_parser.py lines 158-179):
exactly three elements, both operands resolved (left first), then the
comparator dispatched. -/
def evaluate_condition (md : MarketData) (c : LValue) : Except EvalErr Bool :=
  match c with
  | .list [op, e1, e2] => do
    let v1 ← resolve_value md e1
    let v2 ← resolve_value md e2
    if isStrEq op ">" then .ok (decide (v1 > v2))
    else if isStrEq op "<" then .ok (decide (v1 < v2))
    else if isStrEq op ">=" then .ok (decide (v1 ≥ v2))
    else if isStrEq op "<=" then .ok (decide (v1 ≤ v2))
    else if isStrEq op "=" then .ok (decide (v1 = v2))
    else .error (.unknownComparison "unknown comparison operator")
  | _ => .error (.malformed "condition expression")

/-- `(weight1, asset1), (weight2, asset2), ...` pairing of
`for i in range(1, len(expression), 2): if i + 1 < len(expression)`
(composer_parser.py line 238-239): a trailing unpaired element is dropped. -/
def pairsOf : List LValue → List (LValue × LValue)
  | a :: b :: rest => (a, b) :: pairsOf rest
  | _ => []

/-- `weight-equal` accumulation (composer_parser.py lines 218-224): sum the
contributions of every branch result, symbol by symbol. -/
def combineSum (rs : List Alist) : Alist :=
  rs.foldl (fun acc m => m.foldl (fun a p => aadd a p.1 p.2) acc) []

/-- One `(weight, asset_expr)` step of `weight-specified`
(composer_parser.py lines 240-246): `float(weight)` (a non-number raises),
evaluate the asset expression, then for each produced symbol overwrite
`portfolio[symbol] = weight` and add `weight` to the running total
once per symbol. -/
def wsStep (ev : LValue → Except EvalErr Alist) (st : Alist × ℚ) (p : LValue × LValue) :
    Except EvalErr (Alist × ℚ) :=
  match p.1 with
  | .num w => do
    let m ← ev p.2
    .ok (m.foldl (fun s it => (aset s.1 it.1 w, s.2 + w)) st)
  | _ => .error (.typeError "float() on weight")

/-- The `weight-specified` branch (composer_parser.py lines 233-252). -/
def weight_specified_eval (ev : LValue → Except EvalErr Alist) (args : List LValue) :
    Except EvalErr Alist := do
  let st ← (pairsOf args).foldlM (wsStep ev) (([] : Alist), (0 : ℚ))
  if 0 < st.2 then .ok (normalizeBy st.2 st.1) else .ok st.1

/-- The `weight-equal` branch (composer_parser.py lines 199-231): evaluate
every branch in order (errors propagate), keep the non-empty results, sum
contributions per symbol, and renormalize; an all-empty or zero-total
combination yields `{}`. -/
def weight_equal_eval (ev : LValue → Except EvalErr Alist) (args : List LValue) :
    Except EvalErr Alist :=
  match args with
  | [] => .ok []
  | _ => do
    let results ← args.mapM ev
    let kept := results.filter (fun m => decide (m ≠ []))
    if kept = [] then .ok []
    else
      let combined := combineSum kept
      let total := asum combined
      if 0 < total then .ok (normalizeBy total combined) else .ok []

/-- `item` qualifies as an asset expression for the fallback scan:
`isinstance(item, list) and len(item) >= 2 and item[0] == 'asset'`
(composer_parser.py line 315). -/
def isAssetExpr (v : LValue) : Bool :=
  match v with
  | .list (h :: _ :: _) => isStrEq h "asset"
  | _ => false

/-- The unknown-operator fallback (composer_parser.py lines 311-330):
two or more asset sub-lists anywhere in the expression are silently given
equal weights; a singleton list wrapping a list is evaluated transparently;
only otherwise is the "Unknown expression operator" `ValueError` raised. -/
def fallback_eval (ev : LValue → Except EvalErr Alist) (items : List LValue)
    (opname : String) : Except EvalErr Alist :=
  let assetExprs := items.filter isAssetExpr
  if 1 < assetExprs.length then
    let ew : ℚ := 1 / (assetExprs.length : ℚ)
    assetExprs.foldlM
      (fun port ae => do
        let m ← ev ae
        .ok (m.foldl (fun pp it => aset pp it.1 ew) port))
      ([] : Alist)
  else
    match items with
    | [.list inner] => ev (.list inner)
    | _ => .error (.unknownOperator opname)

/-- `method == 'select-top'` on the dynamic selection tag. -/
def isSelectTop (v : LValue) : Bool :=
  isStrEq v "select-top"

/-- Selection-method extraction (composer_parser.py lines 291-296):
a list of at least two elements supplies `(method, count)`, anything else
defaults to `('select-top', 1)`. -/
def selMethod (sm : LValue) : LValue × LValue :=
  match sm with
  | .list (m :: c :: _) => (m, c)
  | _ => (.str "select-top", .num 1)

/-- Stable ascending insertion by indicator value: an element is placed
before the first strictly greater value, so earlier candidates precede
later ones on ties (Python's stable `list.sort`). -/
def insAsc (x : String × ℚ) : List (String × ℚ) → List (String × ℚ)
  | [] => [x]
  | y :: ys => if x.2 ≤ y.2 then x :: y :: ys else y :: insAsc x ys

/-- Stable descending insertion by indicator value (Python's stable
`list.sort(..., reverse=True)` keeps ties in original order). -/
def insDesc (x : String × ℚ) : List (String × ℚ) → List (String × ℚ)
  | [] => [x]
  | y :: ys => if y.2 ≤ x.2 then x :: y :: ys else y :: insDesc x ys

/-- `asset_scores.sort(key=lambda x: x[1], reverse=False)`. -/
def sortAsc : List (String × ℚ) → List (String × ℚ)
  | [] => []
  | x :: xs => insAsc x (sortAsc xs)

/-- `asset_scores.sort(key=lambda x: x[1], reverse=True)`. -/
def sortDesc : List (String × ℚ) → List (String × ℚ)
  | [] => []
  | x :: xs => insDesc x (sortDesc xs)

/-- Python slice index: `l[:count]` needs an integer; a non-integer raises
`TypeError`. -/
def sliceCount (v : LValue) : Except EvalErr Int :=
  match v with
  | .num q => if q.den = 1 then .ok q.num else .error (.typeError "slice index")
  | _ => .error (.typeError "slice index")

/-- Python `l[:c]` including negative-index semantics. -/
def pyTake {α : Type} (c : Int) (l : List α) : List α :=
  if 0 ≤ c then l.take c.toNat else l.take (l.length - c.natAbs)

/-- Iterating a Python value with `for x in v`: lists yield elements,
strings yield one-character strings, dicts yield their keys, numbers raise. -/
def iterElems (v : LValue) : Except EvalErr (List LValue) :=
  match v with
  | .list l => .ok l
  | .str s => .ok (s.toList.map (fun c => .str (String.singleton c)))
  | .dict d => .ok (d.map (fun p => .str p.1))
  | .num _ => .error (.typeError "not iterable")

/-- Candidate scoring (composer_parser.py lines 278-285): evaluate each
candidate expression, and for each produced symbol keep `(symbol, value)`
when the indicator value is available, silently dropping it otherwise. -/
def collectScores (ev : LValue → Except EvalErr Alist) (md : MarketData)
    (itype iparams : LValue) : List LValue → Except EvalErr (List (String × ℚ))
  | [] => .ok []
  | ae :: rest => do
    let m ← ev ae
    let here := m.foldl
      (fun sc p =>
        match get_indicator_value md p.1 itype iparams with
        | some v => sc ++ [(p.1, v)]
        | none => sc)
      []
    let more ← collectScores ev md itype iparams rest
    .ok (here ++ more)

/-- Equal weighting of the selected assets
(`{asset: equal_weight for asset, _ in selected_assets}`). -/
def equalWeightMap (sel : List (String × ℚ)) : Alist :=
  sel.foldl (fun m p => aset m p.1 ((1 : ℚ) / (sel.length : ℚ))) []

/-- The `filter` branch (composer_parser.py lines 262-309). -/
def filter_eval (ev : LValue → Except EvalErr Alist) (md : MarketData)
    (args : List LValue) : Except EvalErr Alist :=
  match args with
  | ic :: sm :: al :: _ =>
    if falsy al then .ok []
    else
      match ic with
      | .list (itype :: _ :: icrest) =>
        let iparams := icrest.headD (.dict [])
        do
          let elems ← iterElems al
          let scores ← collectScores ev md itype iparams elems
          if scores = [] then .ok []
          else
            let mc := selMethod sm
            let sorted := if isSelectTop mc.1 then sortDesc scores else sortAsc scores
            let c ← sliceCount mc.2
            let selected := pyTake c sorted
            if selected = [] then .ok []
            else .ok (equalWeightMap selected)
      | _ => .ok []
  | _ => .error (.indexError "filter expression")

/-- A short display of the operator for the `Unknown expression operator`
message payload. -/
def opName (v : LValue) : String :=
  match v with
  | .str s => s
  | .num _ => "<number>"
  | .list _ => "<list>"
  | .dict _ => "<dict>"

/-- `_evaluate_expression(expression)` (composer_parser.py lines 181-330),
with explicit fuel for the recursion.  Non-list expressions follow Python:
falsy values return `{}`, a non-empty string indexes to its first character
(never a recognized operator, hence the unknown-operator error), and
indexing a number or non-empty dict raises. -/
def evaluate_expression (md : MarketData) : ℕ → LValue → Except EvalErr Alist
  | 0, _ => .error .fuelExhausted
  | _ + 1, .num q => if q = 0 then .ok [] else .error (.typeError "expression[0] on number")
  | _ + 1, .str s =>
    if s = "" then .ok []
    else .error (.unknownOperator (String.singleton (s.get 0)))
  | _ + 1, .dict d =>
    if d.isEmpty then .ok [] else .error (.keyError "expression[0] on dict")
  | _ + 1, .list [] => .ok []
  | n + 1, .list (op :: args) =>
    match op with
    | .str s =>
      if s = "if" then
        match args with
        | [c, t, f] => do
          let b ← evaluate_condition md c
          if b then evaluate_expression md n t else evaluate_expression md n f
        | _ => .error (.malformed "if unpacking")
      else if s = "weight-equal" then
        weight_equal_eval (evaluate_expression md n) args
      else if s = "weight-specified" then
        weight_specified_eval (evaluate_expression md n) args
      else if s = "asset" then
        match args with
        | sym :: _ =>
          match sym with
          | .str a => .ok [(a, 1)]
          | _ => .error (.typeError "non-string asset symbol")
        | [] => .error (.indexError "expression[1]")
      else if s = "group" then
        match args.get? 1 with
        | some body => evaluate_expression md n body
        | none => .error (.indexError "expression[2]")
      else if s = "filter" then
        filter_eval (evaluate_expression md n) md args
      else
        fallback_eval (evaluate_expression md n) (op :: args) (opName op)
    | _ => fallback_eval (evaluate_expression md n) (op :: args) (opName op)

/-- `get_target_portfolio(date)` (composer_parser.py lines 332-355):
evaluate the root expression, then normalize as a safeguard when the total
weight is positive; otherwise the evaluated map is returned unchanged. -/
def get_target_portfolio (md : MarketData) (fuel : ℕ) (root : LValue) :
    Except EvalErr Alist := do
  let portfolio ← evaluate_expression md fuel root
  let total := asum portfolio
  if 0 < total then .ok (normalizeBy total portfolio) else .ok portfolio

/-! ## Portfolio simulator (backtester.py, run_backtest daily trade block) -/

/-- Trading-friction configuration (backtester.py lines 42-45). -/
structure Frictions where
  transaction_cost_pct : ℚ
  min_trade_size : ℚ
  slippage_pct : ℚ
deriving DecidableEq, Repr

def TRANSACTION_COST_PCT : ℚ := 1 / 1000

def MIN_TRADE_SIZE : ℚ := 100

def SLIPPAGE_PCT : ℚ := 1 / 2000

def INITIAL_CAPITAL : ℚ := 100000

/-- The configured constants of backtester.py. -/
def defaultFrictions : Frictions :=
  { transaction_cost_pct := TRANSACTION_COST_PCT
    min_trade_size := MIN_TRADE_SIZE
    slippage_pct := SLIPPAGE_PCT }

/-- One day of the cadence gate (backtester.py lines 500-505):
`rebalance_counter += 1; if rebalance_counter < REBALANCE_FREQUENCY:
continue; rebalance_counter = 0`.  Returns the counter carried to the next
day and whether this day trades. -/
def rebalance_gate (freq : ℕ) (counter : ℕ) : ℕ × Bool :=
  let c := counter + 1
  if c < freq then (c, false) else (0, true)

/-- The counter value entering day `i` (days are indexed from 0). -/
def counter_before (freq : ℕ) : ℕ → ℕ
  | 0 => 0
  | n + 1 => (rebalance_gate freq (counter_before freq n)).1

/-- Whether the trade block executes on day `i`. -/
def is_rebalance_day (freq : ℕ) (i : ℕ) : Bool :=
  (rebalance_gate freq (counter_before freq i)).2

/-- Step 1 mark-to-market (backtester.py lines 482-486):
`current_value = cash + Σ shares * price`. -/
def portfolio_value (price : String → ℚ) (cash : ℚ) (holdings : Alist) : ℚ :=
  holdings.foldl (fun acc p => acc + p.2 * price p.1) cash

/-- The liquidation pass (backtester.py lines 610-624): every held symbol
absent from the target is removed from holdings; the net sale proceeds are
credited to cash only when the trade value reaches the minimum trade size
or the day index is 0.  Python iterates the set difference of the keys;
since each symbol's credit and removal are independent, iterating in
holdings order is state-equivalent. -/
def sell_dropped_positions (fr : Frictions) (i : ℕ) (price : String → ℚ)
    (targetKeys : List String) : ℚ → Alist → ℚ × Alist
  | cash, [] => (cash, [])
  | cash, (s, sh) :: rest =>
    if s ∈ targetKeys then
      let r := sell_dropped_positions fr i price targetKeys cash rest
      (r.1, (s, sh) :: r.2)
    else
      let sellPrice := price s * (1 - fr.slippage_pct)
      let tradeValue := sh * sellPrice
      let cash' :=
        if fr.min_trade_size ≤ tradeValue ∨ i = 0 then
          cash + (tradeValue - tradeValue * fr.transaction_cost_pct)
        else cash
      sell_dropped_positions fr i price targetKeys cash' rest

/-- One `(symbol, target_weight)` iteration of the rebalance loop
(backtester.py lines 628-695).  The `.error` case is Python's `KeyError`
from `holdings[symbol] -= shares_to_sell` when the symbol is absent,
reachable only with a negative target weight. -/
def trade_one (fr : Frictions) (i : ℕ) (currentValue : ℚ) (price : String → ℚ)
    (st : ℚ × Alist) (p : String × ℚ) : Except EvalErr (ℚ × Alist) :=
  let cash := st.1
  let holdings := st.2
  let targetValue := currentValue * p.2
  let pr := price p.1
  let targetShares := targetValue / pr
  let currentShares := (aget holdings p.1).getD 0
  let sharesToTrade := targetShares - currentShares
  if |sharesToTrade * pr| < fr.min_trade_size ∧ i ≠ 0 then .ok st
  else if 0 < sharesToTrade then
    let buyPrice := pr * (1 + fr.slippage_pct)
    let maxAffordable := cash / (buyPrice * (1 + fr.transaction_cost_pct))
    let sharesToBuy := min sharesToTrade maxAffordable
    let gross := sharesToBuy * buyPrice
    let fee := gross * fr.transaction_cost_pct
    let totalCost := gross + fee
    if 0 < sharesToBuy ∧ totalCost ≤ cash then
      .ok (cash - totalCost, aset holdings p.1 (currentShares + sharesToBuy))
    else .ok st
  else if sharesToTrade < 0 then
    let sharesToSell := -sharesToTrade
    let sellPrice := pr * (1 - fr.slippage_pct)
    let gross := sharesToSell * sellPrice
    let net := gross - gross * fr.transaction_cost_pct
    match aget holdings p.1 with
    | some sh => .ok (cash + net, aset holdings p.1 (sh - sharesToSell))
    | none => .error (.keyError p.1)
  else .ok st

/-- The full rebalance pass over the target allocation, in target order. -/
def rebalance_trades (fr : Frictions) (i : ℕ) (currentValue : ℚ)
    (price : String → ℚ) (target : Alist) (st : ℚ × Alist) :
    Except EvalErr (ℚ × Alist) :=
  target.foldlM (trade_one fr i currentValue price) st

/-- The whole daily trade block of `run_backtest` for a rebalancing day:
mark-to-market on the pre-trade ledger, liquidate dropped positions,
then rebalance toward the target. -/
def execute_rebalance (fr : Frictions) (i : ℕ) (price : String → ℚ)
    (target : Alist) (cash : ℚ) (holdings : Alist) : Except EvalErr (ℚ × Alist) :=
  let currentValue := portfolio_value price cash holdings
  let afterSell := sell_dropped_positions fr i price (akeys target) cash holdings
  rebalance_trades fr i currentValue price target afterSell

/-! ## Basic association-list lemmas -/

/-- `d.get(k, 0)`: total lookup with default weight 0. -/
def agetD (m : Alist) (k : String) : ℚ :=
  (aget m k).getD 0

/-- Sum of the contributions that a list of `(symbol, weight)` pairs makes
to one symbol. -/
def contrib : List (String × ℚ) → String → ℚ
  | [], _ => 0
  | p :: rest, s => (if p.1 = s then p.2 else 0) + contrib rest s

/-- Concatenation of a list of branch results. -/
def flattenA : List Alist → List (String × ℚ)
  | [] => []
  | m :: rest => m ++ flattenA rest

/-- The sub-sequence of scored candidates carrying one indicator value,
used to state that the sorts are stable (ties keep original order). -/
def filterVal (v : ℚ) (l : List (String × ℚ)) : List (String × ℚ) :=
  l.filter (fun p => decide (p.2 = v))

/-- A ledger state (cash, holdings) respecting the simulator's invariants:
cash is non-negative and no position is short. -/
def ValidLedger (st : ℚ × Alist) : Prop :=
  0 ≤ st.1 ∧ ∀ p ∈ st.2, 0 ≤ p.2

/-! ### Concrete market data and expressions used in the claim instances -/

/-- Two symbols with RSI(10) values 30 (A) and 70 (B). -/
def mdAB : MarketData := fun s =>
  if s = "A" then some [("RSI_10", 30)]
  else if s = "B" then some [("RSI_10", 70)]
  else none

/-- Symbol A present but with no indicator columns (its RSI lookup returns
`None`), symbol B scored 70. -/
def mdDrop : MarketData := fun s =>
  if s = "A" then some []
  else if s = "B" then some [("RSI_10", 70)]
  else none

/-- No market data at all: every indicator lookup returns `None`. -/
def mdNone : MarketData := fun _ => none

def assetExprA : LValue := .list [.str "asset", .str "A", .str "Asset A"]

def assetExprB : LValue := .list [.str "asset", .str "B", .str "Asset B"]

/-- `["rsi", {":window": 10}]` as it appears in the repository's symphony. -/
def rsiCriteria : LValue := .list [.str "rsi", .dict [(":window", .num 10)]]

def filterExprTop : LValue :=
  .list [.str "filter", rsiCriteria, .list [.str "select-top", .num 1],
    .list [assetExprA, assetExprB]]

def filterExprBottom : LValue :=
  .list [.str "filter", rsiCriteria, .list [.str "select-bottom", .num 1],
    .list [assetExprA, assetExprB]]

def filterExprOverflow : LValue :=
  .list [.str "filter", rsiCriteria, .list [.str "select-top", .num 5],
    .list [assetExprA, assetExprB]]

def filterExprZero : LValue :=
  .list [.str "filter", rsiCriteria, .list [.str "select-top", .num 0],
    .list [assetExprA, assetExprB]]

def filterExprGarbage : LValue :=
  .list [.str "filter", rsiCriteria, .list [.str "garbage-tag", .num 1],
    .list [assetExprA, assetExprB]]

def filterExprNonListSel : LValue :=
  .list [.str "filter", rsiCriteria, .num 7,
    .list [assetExprA, assetExprB]]

/-- An `if` whose condition needs the close price of the unavailable
symbol Z. -/
def ifUnavailExpr : LValue :=
  .list [.str "if",
    .list [.str ">", .list [.str "current-price", .str "Z"], .num 50],
    assetExprA, assetExprB]

/-- `["weight-specified", 1, assetA, 1, assetA]`: the same symbol assigned
by two pairs. -/
def wsDupExpr : LValue :=
  .list [.str "weight-specified", .num 1, assetExprA, .num 1, assetExprA]

/-- `["weight-specified", 0, assetA]`: a single zero weight. -/
def wsZeroExpr : LValue :=
  .list [.str "weight-specified", .num 0, assetExprA]

/-- `["weight-equal", assetS, assetS, assetT]`: S through two branches,
T through one. -/
def weDupExpr : LValue :=
  .list [.str "weight-equal",
    .list [.str "asset", .str "S", .str "Asset S"],
    .list [.str "asset", .str "S", .str "Asset S again"],
    .list [.str "asset", .str "T", .str "Asset T"]]

theorem asum_nil : asum [] = 0 := rfl

theorem asum_cons (k : String) (v : ℚ) (m : Alist) :
    asum ((k, v) :: m) = v + asum m := by
  simp [asum]

theorem asum_append (m m' : Alist) : asum (m ++ m') = asum m + asum m' := by
  simp [asum]

theorem asum_normalizeBy (t : ℚ) (m : Alist) :
    asum (normalizeBy t m) = asum m / t := by
  induction m with
  | nil => simp [asum, normalizeBy]
  | cons p rest ih =>
    obtain ⟨k, v⟩ := p
    simp only [normalizeBy, List.map_cons] at ih ⊢
    rw [asum_cons, ih, asum_cons, add_div]

theorem mem_normalizeBy {t : ℚ} {m : Alist} {p : String × ℚ} :
    p ∈ normalizeBy t m → ∃ q ∈ m, p = (q.1, q.2 / t) := by
  intro h
  simp only [normalizeBy, List.mem_map] at h
  obtain ⟨q, hq, hpq⟩ := h
  exact ⟨q, hq, hpq.symm⟩

theorem mem_aset {m : Alist} {k : String} {v : ℚ} {p : String × ℚ} :
    p ∈ aset m k v → p = (k, v) ∨ p ∈ m := by
  induction m with
  | nil => intro h; simp [aset] at h; left; exact h
  | cons q rest ih =>
    intro h
    by_cases hk : q.1 = k
    · simp only [aset] at h
      rw [show q = (q.1, q.2) from rfl] at h
      simp only [hk, if_pos rfl] at h
      rcases List.mem_cons.mp h with h1 | h2
      · left; exact h1
      · right; exact List.mem_cons_of_mem _ h2
    · simp only [aset] at h
      rw [show q = (q.1, q.2) from rfl] at h
      simp only [hk, if_neg hk] at h
      rcases List.mem_cons.mp h with h1 | h2
      · right; rw [h1]; exact List.mem_cons_self _ _
      · rcases ih h2 with h3 | h4
        · left; exact h3
        · right; exact List.mem_cons_of_mem _ h4

theorem aget_nonneg {m : Alist} (h : ∀ p ∈ m, 0 ≤ p.2) (k : String) :
    0 ≤ agetD m k := by
  induction m with
  | nil => simp [agetD, aget]
  | cons q rest ih =>
    by_cases hk : q.1 = k
    · simp only [agetD, aget, hk, if_pos rfl, Option.getD_some]
      exact h q (List.mem_cons_self _ _)
    · simp only [agetD, aget, hk, if_neg hk]
      exact ih (fun p hp => h p (List.mem_cons_of_mem _ hp))

theorem aset_fresh {m : Alist} {k : String} (v : ℚ) (h : k ∉ akeys m) :
    aset m k v = m ++ [(k, v)] := by
  induction m with
  | nil => simp [aset]
  | cons q rest ih =>
    have hk : q.1 ≠ k := by
      intro he
      exact h (by simp [akeys, he])
    simp only [aset, if_neg hk, List.cons_append]
    rw [show q = (q.1, q.2) from rfl]
    congr 1
    exact ih (fun hmem => h (by simp [akeys] at hmem ⊢; right; exact hmem))

theorem agetD_aadd (m : Alist) (k : String) (v : ℚ) (s : String) :
    agetD (aadd m k v) s = agetD m s + (if k = s then v else 0) := by
  induction m with
  | nil =>
    by_cases h : k = s
    · simp [aadd, agetD, aget, h]
    · simp [aadd, agetD, aget, h]
  | cons q rest ih =>
    obtain ⟨qk, qv⟩ := q
    by_cases hk : qk = k
    · subst hk
      by_cases hs : qk = s
      · simp [aadd, agetD, aget, hs]
      · simp [aadd, agetD, aget, hs]
    · by_cases hs : qk = s
      · have hks : ¬ (k = s) := fun he => hk (hs.trans he.symm)
        have hsk : ¬ (s = k) := fun he => hks he.symm
        simp [aadd, agetD, aget, hk, hs, hks, hsk]
      · simp only [aadd, if_neg hk]
        have h1 : agetD ((qk, qv) :: aadd rest k v) s = agetD (aadd rest k v) s := by
          simp [agetD, aget, hs]
        have h2 : agetD ((qk, qv) :: rest) s = agetD rest s := by
          simp [agetD, aget, hs]
        rw [h1, h2, ih]

theorem agetD_foldl_aadd (l : List (String × ℚ)) (acc : Alist) (s : String) :
    agetD (l.foldl (fun a p => aadd a p.1 p.2) acc) s = agetD acc s + contrib l s := by
  induction l generalizing acc with
  | nil => simp [contrib]
  | cons p rest ih =>
    simp only [List.foldl_cons, contrib]
    rw [ih, agetD_aadd]
    ring

theorem combineSum_eq_foldl (rs : List Alist) :
    combineSum rs = (flattenA rs).foldl (fun a p => aadd a p.1 p.2) [] := by
  suffices h : ∀ acc : Alist,
      rs.foldl (fun acc m => m.foldl (fun a p => aadd a p.1 p.2) acc) acc
        = (flattenA rs).foldl (fun a p => aadd a p.1 p.2) acc by
    exact h []
  induction rs with
  | nil => intro acc; simp [flattenA]
  | cons m rest ih =>
    intro acc
    simp only [List.foldl_cons, flattenA, List.foldl_append]
    exact ih _

theorem contrib_append (l l' : List (String × ℚ)) (s : String) :
    contrib (l ++ l') s = contrib l s + contrib l' s := by
  induction l with
  | nil => simp [contrib]
  | cons p rest ih => simp [contrib, ih]; ring

/-- The accumulation semantics of `weight-equal`: the combined weight of a
symbol is the sum of its contributions across all branch results. -/
theorem agetD_combineSum (rs : List Alist) (s : String) :
    agetD (combineSum rs) s = contrib (flattenA rs) s := by
  rw [combineSum_eq_foldl, agetD_foldl_aadd]
  simp [agetD, aget]

theorem mem_aadd_nonneg {m : Alist} {k : String} {v : ℚ}
    (hm : ∀ p ∈ m, 0 ≤ p.2) (hv : 0 ≤ v) :
    ∀ p ∈ aadd m k v, 0 ≤ p.2 := by
  induction m with
  | nil => intro p hp; simp [aadd] at hp; rw [hp]; exact hv
  | cons q rest ih =>
    intro p hp
    by_cases hk : q.1 = k
    · rw [show q = (q.1, q.2) from rfl] at hp
      simp only [aadd, if_pos hk] at hp
      rcases List.mem_cons.mp hp with h1 | h2
      · rw [h1]
        have := hm q (List.mem_cons_self _ _)
        simpa using add_nonneg this hv
      · exact hm p (List.mem_cons_of_mem _ h2)
    · rw [show q = (q.1, q.2) from rfl] at hp
      simp only [aadd, if_neg hk] at hp
      rcases List.mem_cons.mp hp with h1 | h2
      · rw [h1]; exact hm q (List.mem_cons_self _ _)
      · exact ih (fun p hp => hm p (List.mem_cons_of_mem _ hp)) p h2

theorem foldl_aadd_nonneg {m : List (String × ℚ)} (hm : ∀ p ∈ m, 0 ≤ p.2) :
    ∀ (acc : Alist), (∀ p ∈ acc, 0 ≤ p.2) →
      ∀ p ∈ m.foldl (fun a q => aadd a q.1 q.2) acc, 0 ≤ p.2 := by
  induction m with
  | nil => intro acc hacc; simpa using hacc
  | cons q rest ih =>
    intro acc hacc
    simp only [List.foldl_cons]
    exact ih (fun p hp => hm p (List.mem_cons_of_mem _ hp)) _
      (mem_aadd_nonneg hacc (hm q (List.mem_cons_self _ _)))

theorem combineSum_nonneg {rs : List Alist}
    (h : ∀ m ∈ rs, ∀ p ∈ m, 0 ≤ p.2) :
    ∀ p ∈ combineSum rs, 0 ≤ p.2 := by
  suffices hgen : ∀ (hh : ∀ m ∈ rs, ∀ p ∈ m, 0 ≤ p.2) (acc : Alist), (∀ p ∈ acc, 0 ≤ p.2) →
      ∀ p ∈ rs.foldl (fun acc m => m.foldl (fun a q => aadd a q.1 q.2) acc) acc, 0 ≤ p.2 by
    exact hgen h [] (by simp)
  clear h
  induction rs with
  | nil => intro _ acc hacc; simpa using hacc
  | cons m rest ih =>
    intro hh acc hacc
    simp only [List.foldl_cons]
    exact ih (fun m' hm' => hh m' (List.mem_cons_of_mem _ hm')) _
      (foldl_aadd_nonneg (hh m (List.mem_cons_self _ _)) _ hacc)

theorem asum_nonneg {m : Alist} (hp : ∀ p ∈ m, 0 ≤ p.2) : 0 ≤ asum m := by
  induction m with
  | nil => simp [asum]
  | cons p rest ih =>
    obtain ⟨k, v⟩ := p
    rw [asum_cons]
    refine add_nonneg (hp (k, v) (List.mem_cons_self _ _)) ?_
    exact ih (fun q hq => hp q (List.mem_cons_of_mem _ hq))

theorem asum_pos {m : Alist} (hne : m ≠ []) (hp : ∀ p ∈ m, 0 < p.2) :
    0 < asum m := by
  cases m with
  | nil => exact absurd rfl hne
  | cons p rest =>
    obtain ⟨k, v⟩ := p
    rw [asum_cons]
    refine add_pos_of_pos_of_nonneg (hp (k, v) (List.mem_cons_self _ _)) ?_
    exact asum_nonneg (fun q hq => le_of_lt (hp q (List.mem_cons_of_mem _ hq)))

theorem aset_ne_nil (m : Alist) (k : String) (v : ℚ) : aset m k v ≠ [] := by
  cases m with
  | nil => simp [aset]
  | cons q rest =>
    obtain ⟨qk, qv⟩ := q
    simp only [aset]
    split <;> simp

theorem foldl_aset_const_ne_nil (c : ℚ) :
    ∀ (l : List (String × ℚ)) (m : Alist), m ≠ [] ∨ l ≠ [] →
      l.foldl (fun acc p => aset acc p.1 c) m ≠ [] := by
  intro l
  induction l with
  | nil =>
    intro m h
    rcases h with h | h
    · simpa using h
    · exact absurd rfl h
  | cons p rest ih =>
    intro m _
    simp only [List.foldl_cons]
    exact ih _ (Or.inl (aset_ne_nil _ _ _))

theorem equalWeightMap_ne_nil {sel : List (String × ℚ)} (h : sel ≠ []) :
    equalWeightMap sel ≠ [] := by
  unfold equalWeightMap
  exact foldl_aset_const_ne_nil _ _ _ (Or.inr h)

/-! ### Sorting: permutation, sortedness, stability -/

theorem insDesc_perm (x : String × ℚ) (l : List (String × ℚ)) :
    List.Perm (insDesc x l) (x :: l) := by
  induction l with
  | nil => simp [insDesc]
  | cons y ys ih =>
    simp only [insDesc]
    by_cases h : y.2 ≤ x.2
    · simp [h]
    · simp only [if_neg h]
      exact (ih.cons y).trans (List.Perm.swap x y ys)

theorem insAsc_perm (x : String × ℚ) (l : List (String × ℚ)) :
    List.Perm (insAsc x l) (x :: l) := by
  induction l with
  | nil => simp [insAsc]
  | cons y ys ih =>
    simp only [insAsc]
    by_cases h : x.2 ≤ y.2
    · simp [h]
    · simp only [if_neg h]
      exact (ih.cons y).trans (List.Perm.swap x y ys)

theorem sortDesc_perm (l : List (String × ℚ)) : List.Perm (sortDesc l) l := by
  induction l with
  | nil => simp [sortDesc]
  | cons x xs ih =>
    simp only [sortDesc]
    exact (insDesc_perm x (sortDesc xs)).trans (ih.cons x)

theorem sortAsc_perm (l : List (String × ℚ)) : List.Perm (sortAsc l) l := by
  induction l with
  | nil => simp [sortAsc]
  | cons x xs ih =>
    simp only [sortAsc]
    exact (insAsc_perm x (sortAsc xs)).trans (ih.cons x)

theorem insDesc_pairwise {x : String × ℚ} {l : List (String × ℚ)}
    (h : List.Pairwise (fun a b : String × ℚ => b.2 ≤ a.2) l) :
    List.Pairwise (fun a b : String × ℚ => b.2 ≤ a.2) (insDesc x l) := by
  induction l with
  | nil => simp [insDesc]
  | cons y ys ih =>
    rcases List.pairwise_cons.mp h with ⟨hy, hys⟩
    simp only [insDesc]
    by_cases hc : y.2 ≤ x.2
    · simp only [if_pos hc]
      refine List.pairwise_cons.mpr ⟨?_, h⟩
      intro z hz
      rcases List.mem_cons.mp hz with rfl | hz'
      · exact hc
      · exact le_trans (hy z hz') hc
    · simp only [if_neg hc]
      refine List.pairwise_cons.mpr ⟨?_, ih hys⟩
      intro z hz
      rcases List.mem_cons.mp ((insDesc_perm x ys).mem_iff.mp hz) with heq | hz'
      · rw [heq]
        exact le_of_lt (lt_of_not_le hc)
      · exact hy z hz'

theorem insAsc_pairwise {x : String × ℚ} {l : List (String × ℚ)}
    (h : List.Pairwise (fun a b : String × ℚ => a.2 ≤ b.2) l) :
    List.Pairwise (fun a b : String × ℚ => a.2 ≤ b.2) (insAsc x l) := by
  induction l with
  | nil => simp [insAsc]
  | cons y ys ih =>
    rcases List.pairwise_cons.mp h with ⟨hy, hys⟩
    simp only [insAsc]
    by_cases hc : x.2 ≤ y.2
    · simp only [if_pos hc]
      refine List.pairwise_cons.mpr ⟨?_, h⟩
      intro z hz
      rcases List.mem_cons.mp hz with rfl | hz'
      · exact hc
      · exact le_trans hc (hy z hz')
    · simp only [if_neg hc]
      refine List.pairwise_cons.mpr ⟨?_, ih hys⟩
      intro z hz
      rcases List.mem_cons.mp ((insAsc_perm x ys).mem_iff.mp hz) with heq | hz'
      · rw [heq]
        exact le_of_lt (lt_of_not_le hc)
      · exact hy z hz'

theorem sortDesc_pairwise (l : List (String × ℚ)) :
    List.Pairwise (fun a b : String × ℚ => b.2 ≤ a.2) (sortDesc l) := by
  induction l with
  | nil => simp [sortDesc]
  | cons x xs ih =>
    simp only [sortDesc]
    exact insDesc_pairwise ih

theorem sortAsc_pairwise (l : List (String × ℚ)) :
    List.Pairwise (fun a b : String × ℚ => a.2 ≤ b.2) (sortAsc l) := by
  induction l with
  | nil => simp [sortAsc]
  | cons x xs ih =>
    simp only [sortAsc]
    exact insAsc_pairwise ih

theorem filterVal_cons (v : ℚ) (p : String × ℚ) (l : List (String × ℚ)) :
    filterVal v (p :: l) = if p.2 = v then p :: filterVal v l else filterVal v l := by
  simp only [filterVal, List.filter_cons]
  by_cases h : p.2 = v <;> simp [h]

theorem filterVal_insDesc (x : String × ℚ) (l : List (String × ℚ)) (v : ℚ) :
    filterVal v (insDesc x l)
      = if x.2 = v then x :: filterVal v l else filterVal v l := by
  induction l with
  | nil =>
    by_cases h : x.2 = v <;> simp [insDesc, filterVal, h]
  | cons y ys ih =>
    simp only [insDesc]
    by_cases hc : y.2 ≤ x.2
    · simp only [if_pos hc]
      rw [filterVal_cons]
    · simp only [if_neg hc]
      rw [filterVal_cons, filterVal_cons]
      by_cases hy : y.2 = v
      · have hx : ¬ (x.2 = v) := by
          intro he
          exact hc (le_of_eq (hy.trans he.symm))
        simp only [if_pos hy, if_neg hx] at ih ⊢
        rw [ih]
      · simp only [if_neg hy]
        exact ih

theorem filterVal_insAsc (x : String × ℚ) (l : List (String × ℚ)) (v : ℚ) :
    filterVal v (insAsc x l)
      = if x.2 = v then x :: filterVal v l else filterVal v l := by
  induction l with
  | nil =>
    by_cases h : x.2 = v <;> simp [insAsc, filterVal, h]
  | cons y ys ih =>
    simp only [insAsc]
    by_cases hc : x.2 ≤ y.2
    · simp only [if_pos hc]
      rw [filterVal_cons]
    · simp only [if_neg hc]
      rw [filterVal_cons, filterVal_cons]
      by_cases hy : y.2 = v
      · have hx : ¬ (x.2 = v) := by
          intro he
          exact hc (le_of_eq (he.trans hy.symm))
        simp only [if_pos hy, if_neg hx] at ih ⊢
        rw [ih]
      · simp only [if_neg hy]
        exact ih

/-- The descending sort is stable: the candidates carrying any fixed
indicator value appear in their original relative order. -/
theorem filterVal_sortDesc (v : ℚ) (l : List (String × ℚ)) :
    filterVal v (sortDesc l) = filterVal v l := by
  induction l with
  | nil => rfl
  | cons x xs ih =>
    simp only [sortDesc]
    rw [filterVal_insDesc, ih, filterVal_cons]

/-- The ascending sort is stable as well. -/
theorem filterVal_sortAsc (v : ℚ) (l : List (String × ℚ)) :
    filterVal v (sortAsc l) = filterVal v l := by
  induction l with
  | nil => rfl
  | cons x xs ih =>
    simp only [sortAsc]
    rw [filterVal_insAsc, ih, filterVal_cons]

/-! ### Monadic plumbing and the weight-specified accumulation -/

theorem except_bind_ok {α β : Type} {x : Except EvalErr α} {f : α → Except EvalErr β}
    {b : β} : (x >>= f) = .ok b ↔ ∃ a, x = .ok a ∧ f a = .ok b := by
  cases x with
  | error e => simp [Bind.bind, Except.bind]
  | ok a => simp [Bind.bind, Except.bind]

theorem akeys_append (a b : Alist) : akeys (a ++ b) = akeys a ++ akeys b := by
  simp [akeys]

theorem asum_map_const (w : ℚ) (m : List (String × ℚ)) :
    asum (m.map (fun it => (it.1, w))) = w * m.length := by
  induction m with
  | nil => simp [asum]
  | cons it rest ih =>
    simp only [List.map_cons]
    rw [asum_cons, ih, List.length_cons]
    push_cast
    ring

theorem ws_inner_foldl (w : ℚ) (m : List (String × ℚ)) :
    ∀ (port : Alist) (tot : ℚ),
      (∀ k ∈ m.map Prod.fst, k ∉ akeys port) →
      (m.map Prod.fst).Nodup →
      m.foldl (fun s it => (aset s.1 it.1 w, s.2 + w)) (port, tot)
        = (port ++ m.map (fun it => (it.1, w)), tot + w * m.length) := by
  induction m with
  | nil =>
    intro port tot _ _
    simp
  | cons it rest ih =>
    intro port tot hfresh hnd
    simp only [List.foldl_cons]
    have h1 : aset port it.1 w = port ++ [(it.1, w)] :=
      aset_fresh w (hfresh it.1 (by simp))
    have hnd' := hnd
    rw [List.map_cons, List.nodup_cons] at hnd'
    have hfresh' : ∀ k ∈ rest.map Prod.fst, k ∉ akeys (port ++ [(it.1, w)]) := by
      intro k hk
      rw [akeys_append]
      intro hmem
      rcases List.mem_append.mp hmem with hmem1 | hmem2
      · exact hfresh k (by simp [hk]) hmem1
      · have : k = it.1 := by simpa [akeys] using hmem2
        exact hnd'.1 (this ▸ hk)
    rw [h1, ih (port ++ [(it.1, w)]) (tot + w) hfresh' hnd'.2]
    simp only [Prod.mk.injEq]
    constructor
    · simp
    · rw [List.length_cons]
      push_cast
      ring

theorem ws_foldlM_spec (ev : LValue → Except EvalErr Alist) :
    ∀ (ps : List (LValue × LValue)) (ms : List Alist) (port : Alist) (tot : ℚ),
      ps.mapM (fun p => ev p.2) = .ok ms →
      (∀ p ∈ ps, ∃ w : ℚ, p.1 = .num w ∧ 0 < w) →
      (akeys port ++ (flattenA ms).map Prod.fst).Nodup →
      asum port = tot →
      (∀ p ∈ port, 0 < p.2) →
      ∃ st : Alist × ℚ, ps.foldlM (wsStep ev) (port, tot) = .ok st ∧
        asum st.1 = st.2 ∧ (∀ p ∈ st.1, 0 < p.2) ∧
        akeys st.1 = akeys port ++ (flattenA ms).map Prod.fst := by
  intro ps
  induction ps with
  | nil =>
    intro ms port tot hm hw hnd hsum hpos
    have hms : ms = [] := by
      rw [List.mapM_nil] at hm
      simpa [pure, Except.pure] using hm.symm
    subst hms
    refine ⟨(port, tot), by rw [List.foldlM_nil]; rfl, hsum, hpos, ?_⟩
    simp [flattenA]
  | cons p rest ih =>
    intro ms port tot hm hw hnd hsum hpos
    rw [List.mapM_cons] at hm
    rcases except_bind_ok.mp hm with ⟨m, hev, hm2⟩
    rcases except_bind_ok.mp hm2 with ⟨ms', hrest, hpure⟩
    have hms : ms = m :: ms' := by
      simpa [pure, Except.pure] using hpure.symm
    subst hms
    rcases hw p (List.mem_cons_self _ _) with ⟨w, hw1, hwpos⟩
    rw [List.foldlM_cons]
    have hflat : (flattenA (m :: ms')).map Prod.fst
        = m.map Prod.fst ++ (flattenA ms').map Prod.fst := by
      simp [flattenA]
    rw [hflat] at hnd
    have hnd2 : ((akeys port ++ m.map Prod.fst) ++ (flattenA ms').map Prod.fst).Nodup := by
      rwa [List.append_assoc]
    have hndPortM : (akeys port ++ m.map Prod.fst).Nodup :=
      (List.nodup_append.mp hnd2).1
    have hfresh : ∀ k ∈ m.map Prod.fst, k ∉ akeys port := by
      intro k hk hkp
      exact ((List.nodup_append.mp hndPortM).2.2) hkp hk
    have hmnd : (m.map Prod.fst).Nodup := (List.nodup_append.mp hndPortM).2.1
    have hstep : wsStep ev (port, tot) p
        = .ok (port ++ m.map (fun it => (it.1, w)), tot + w * m.length) := by
      unfold wsStep
      rw [hw1, hev]
      simp only [Bind.bind, Except.bind]
      rw [ws_inner_foldl w m port tot hfresh hmnd]
    rw [hstep]
    simp only [Bind.bind, Except.bind]
    have hkeys : akeys (port ++ m.map (fun it => (it.1, w)))
        = akeys port ++ m.map Prod.fst := by
      rw [akeys_append]
      congr 1
      simp [akeys]
    refine (ih ms' (port ++ m.map (fun it => (it.1, w))) (tot + w * m.length)
        hrest (fun q hq => hw q (List.mem_cons_of_mem _ hq)) ?_ ?_ ?_).imp ?_
    · rw [hkeys, List.append_assoc]
      rwa [List.append_assoc] at hnd2
    · rw [asum_append, hsum, asum_map_const]
    · intro q hq
      rcases List.mem_append.mp hq with h1 | h2
      · exact hpos q h1
      · rcases List.mem_map.mp h2 with ⟨it, _, hit⟩
        rw [← hit]
        exact hwpos
    · intro st hst
      refine ⟨hst.1, hst.2.1, hst.2.2.1, ?_⟩
      rw [hst.2.2.2, hkeys, List.append_assoc, hflat]

/-! ### Simulator ledger invariants -/

theorem portfolio_value_nonneg (price : String → ℚ) (hpr : ∀ s, 0 ≤ price s) :
    ∀ (holdings : Alist) (cash : ℚ), 0 ≤ cash → (∀ p ∈ holdings, 0 ≤ p.2) →
      0 ≤ portfolio_value price cash holdings := by
  intro holdings
  induction holdings with
  | nil =>
    intro cash hc _
    simpa [portfolio_value] using hc
  | cons p rest ih =>
    intro cash hc hh
    have step : portfolio_value price cash (p :: rest)
        = portfolio_value price (cash + p.2 * price p.1) rest := by
      simp [portfolio_value]
    rw [step]
    exact ih (cash + p.2 * price p.1)
      (add_nonneg hc (mul_nonneg (hh p (List.mem_cons_self _ _)) (hpr p.1)))
      (fun q hq => hh q (List.mem_cons_of_mem _ hq))

theorem sell_dropped_valid (fr : Frictions) (i : ℕ) (price : String → ℚ)
    (targetKeys : List String) (hsl1 : fr.slippage_pct ≤ 1)
    (htc1 : fr.transaction_cost_pct ≤ 1) (hpr : ∀ s, 0 ≤ price s) :
    ∀ (holdings : Alist) (cash : ℚ), 0 ≤ cash → (∀ p ∈ holdings, 0 ≤ p.2) →
      ValidLedger (sell_dropped_positions fr i price targetKeys cash holdings) := by
  intro holdings
  induction holdings with
  | nil =>
    intro cash hc _
    exact ⟨by simpa [sell_dropped_positions] using hc,
      by simp [sell_dropped_positions]⟩
  | cons p rest ih =>
    intro cash hc hh
    obtain ⟨s, sh⟩ := p
    have hsh : 0 ≤ sh := hh (s, sh) (List.mem_cons_self _ _)
    by_cases hmem : s ∈ targetKeys
    · simp only [sell_dropped_positions, if_pos hmem]
      have h := ih cash hc (fun q hq => hh q (List.mem_cons_of_mem _ hq))
      refine ⟨h.1, ?_⟩
      intro q hq
      rcases List.mem_cons.mp hq with heq | hq'
      · rw [heq]
        exact hsh
      · exact h.2 q hq'
    · simp only [sell_dropped_positions, if_neg hmem]
      have htv : 0 ≤ sh * (price s * (1 - fr.slippage_pct)) :=
        mul_nonneg hsh (mul_nonneg (hpr s) (by linarith))
      have hcash' : 0 ≤ (if fr.min_trade_size ≤ sh * (price s * (1 - fr.slippage_pct)) ∨ i = 0
          then cash + (sh * (price s * (1 - fr.slippage_pct))
            - sh * (price s * (1 - fr.slippage_pct)) * fr.transaction_cost_pct)
          else cash) := by
        split
        · have : 0 ≤ sh * (price s * (1 - fr.slippage_pct))
              - sh * (price s * (1 - fr.slippage_pct)) * fr.transaction_cost_pct := by
            have := mul_nonneg htv (show (0 : ℚ) ≤ 1 - fr.transaction_cost_pct by linarith)
            linarith [this]
          linarith
        · exact hc
      exact ih _ hcash' (fun q hq => hh q (List.mem_cons_of_mem _ hq))

theorem trade_one_valid (fr : Frictions) (i : ℕ) (cv : ℚ) (price : String → ℚ)
    (st : ℚ × Alist) (p : String × ℚ)
    (htc0 : 0 ≤ fr.transaction_cost_pct) (htc1 : fr.transaction_cost_pct ≤ 1)
    (hsl0 : 0 ≤ fr.slippage_pct) (hsl1 : fr.slippage_pct ≤ 1)
    (hpr : 0 < price p.1) (hw : 0 ≤ p.2) (hcv : 0 ≤ cv)
    (hv : ValidLedger st) :
    ∀ st', trade_one fr i cv price st p = .ok st' → ValidLedger st' := by
  intro st' h
  unfold trade_one at h
  dsimp only at h
  by_cases h1 : |(cv * p.2 / price p.1 - (aget st.2 p.1).getD 0) * price p.1| < fr.min_trade_size ∧ i ≠ 0
  · rw [if_pos h1] at h
    cases h
    exact hv
  · rw [if_neg h1] at h
    by_cases h2 : 0 < cv * p.2 / price p.1 - (aget st.2 p.1).getD 0
    · rw [if_pos h2] at h
      by_cases h3 : 0 < min (cv * p.2 / price p.1 - (aget st.2 p.1).getD 0)
            (st.1 / (price p.1 * (1 + fr.slippage_pct) * (1 + fr.transaction_cost_pct)))
          ∧ min (cv * p.2 / price p.1 - (aget st.2 p.1).getD 0)
              (st.1 / (price p.1 * (1 + fr.slippage_pct) * (1 + fr.transaction_cost_pct)))
              * (price p.1 * (1 + fr.slippage_pct))
            + min (cv * p.2 / price p.1 - (aget st.2 p.1).getD 0)
                (st.1 / (price p.1 * (1 + fr.slippage_pct) * (1 + fr.transaction_cost_pct)))
                * (price p.1 * (1 + fr.slippage_pct)) * fr.transaction_cost_pct
            ≤ st.1
      · rw [if_pos h3] at h
        cases h
        refine ⟨by dsimp only; linarith [h3.2], ?_⟩
        intro q hq
        rcases mem_aset hq with heq | hq'
        · rw [heq]
          dsimp only
          have hcur : 0 ≤ (aget st.2 p.1).getD 0 := aget_nonneg hv.2 p.1
          have := h3.1
          positivity
        · exact hv.2 q hq'
      · rw [if_neg h3] at h
        cases h
        exact hv
    · rw [if_neg h2] at h
      by_cases h4 : cv * p.2 / price p.1 - (aget st.2 p.1).getD 0 < 0
      · rw [if_pos h4] at h
        cases hag : aget st.2 p.1 with
        | none =>
          rw [hag] at h
          cases h
        | some sh =>
          rw [hag] at h h2 h4
          simp only [Option.getD_some] at h h2 h4
          cases h
          have hsell : 0 ≤ -(cv * p.2 / price p.1 - sh) := by linarith
          have hgross : 0 ≤ -(cv * p.2 / price p.1 - sh)
              * (price p.1 * (1 - fr.slippage_pct)) :=
            mul_nonneg hsell (mul_nonneg (le_of_lt hpr) (by linarith))
          refine ⟨?_, ?_⟩
          · dsimp only
            have hnet : 0 ≤ -(cv * p.2 / price p.1 - sh)
                  * (price p.1 * (1 - fr.slippage_pct))
                - -(cv * p.2 / price p.1 - sh)
                  * (price p.1 * (1 - fr.slippage_pct)) * fr.transaction_cost_pct := by
              have := mul_nonneg hgross (show (0 : ℚ) ≤ 1 - fr.transaction_cost_pct by linarith)
              linarith [this]
            linarith [hv.1]
          · intro q hq
            dsimp only at hq
            rcases mem_aset hq with heq | hq'
            · rw [heq]
              dsimp only
              have hts : 0 ≤ cv * p.2 / price p.1 :=
                div_nonneg (mul_nonneg hcv hw) (le_of_lt hpr)
              have hval : sh - -(cv * p.2 / price p.1 - sh) = cv * p.2 / price p.1 := by
                ring
              rw [hval]
              exact hts
            · exact hv.2 q hq'
      · rw [if_neg h4] at h
        cases h
        exact hv

theorem rebalance_trades_valid (fr : Frictions) (i : ℕ) (cv : ℚ)
    (price : String → ℚ)
    (htc0 : 0 ≤ fr.transaction_cost_pct) (htc1 : fr.transaction_cost_pct ≤ 1)
    (hsl0 : 0 ≤ fr.slippage_pct) (hsl1 : fr.slippage_pct ≤ 1) (hcv : 0 ≤ cv) :
    ∀ (target : Alist) (st : ℚ × Alist),
      (∀ p ∈ target, 0 ≤ p.2 ∧ 0 < price p.1) → ValidLedger st →
      ∀ st', rebalance_trades fr i cv price target st = .ok st' → ValidLedger st' := by
  intro target
  induction target with
  | nil =>
    intro st _ hv st' h
    rw [rebalance_trades, List.foldlM_nil] at h
    cases h
    exact hv
  | cons p rest ih =>
    intro st htgt hv st' h
    rw [rebalance_trades, List.foldlM_cons] at h
    rcases except_bind_ok.mp h with ⟨st1, hone, hrest⟩
    have hp := htgt p (List.mem_cons_self _ _)
    have hv1 := trade_one_valid fr i cv price st p htc0 htc1 hsl0 hsl1
      hp.2 hp.1 hcv hv st1 hone
    exact ih st1 (fun q hq => htgt q (List.mem_cons_of_mem _ hq)) hv1 st' hrest

theorem execute_rebalance_valid (fr : Frictions) (i : ℕ) (price : String → ℚ)
    (target : Alist) (cash : ℚ) (holdings : Alist)
    (htc0 : 0 ≤ fr.transaction_cost_pct) (htc1 : fr.transaction_cost_pct ≤ 1)
    (hsl0 : 0 ≤ fr.slippage_pct) (hsl1 : fr.slippage_pct ≤ 1)
    (hpr : ∀ s, 0 < price s) (hw : ∀ p ∈ target, 0 ≤ p.2)
    (hc : 0 ≤ cash) (hh : ∀ p ∈ holdings, 0 ≤ p.2) :
    ∀ st', execute_rebalance fr i price target cash holdings = .ok st' →
      ValidLedger st' := by
  intro st' h
  unfold execute_rebalance at h
  have hpr' : ∀ s, 0 ≤ price s := fun s => le_of_lt (hpr s)
  have hcv : 0 ≤ portfolio_value price cash holdings :=
    portfolio_value_nonneg price hpr' holdings cash hc hh
  have hmid : ValidLedger (sell_dropped_positions fr i price (akeys target) cash holdings) :=
    sell_dropped_valid fr i price (akeys target) hsl1 htc1 hpr' holdings cash hc hh
  exact rebalance_trades_valid fr i (portfolio_value price cash holdings) price
    htc0 htc1 hsl0 hsl1 hcv target _
    (fun p hp => ⟨hw p hp, hpr p.1⟩) hmid st' h

/-! ### Unfolding equations for the evaluator's dispatch on literal heads -/

theorem eval_weight_equal_unfold (md : MarketData) (n : ℕ) (args : List LValue) :
    evaluate_expression md (n + 1) (.list (.str "weight-equal" :: args))
      = weight_equal_eval (evaluate_expression md n) args := rfl

theorem eval_weight_specified_unfold (md : MarketData) (n : ℕ) (args : List LValue) :
    evaluate_expression md (n + 1) (.list (.str "weight-specified" :: args))
      = weight_specified_eval (evaluate_expression md n) args := rfl

theorem eval_filter_unfold (md : MarketData) (n : ℕ) (args : List LValue) :
    evaluate_expression md (n + 1) (.list (.str "filter" :: args))
      = filter_eval (evaluate_expression md n) md args := rfl

/-! ### Fallback, filter and selection lemmas -/

theorem fallback_unknown (ev : LValue → Except EvalErr Alist) (items : List LValue)
    (opname : String)
    (hcount : ¬ 1 < (items.filter isAssetExpr).length)
    (hsingle : ∀ inner, items ≠ [.list inner]) :
    fallback_eval ev items opname = .error (.unknownOperator opname) := by
  unfold fallback_eval
  rw [if_neg hcount]
  match items, hsingle with
  | [], _ => rfl
  | [.num q], _ => rfl
  | [.str s], _ => rfl
  | [.dict d], _ => rfl
  | [.list inner], hs => exact absurd rfl (hs inner)
  | a :: b :: rest, _ => cases a <;> rfl

theorem scores_fold_none (md : MarketData) (itype iparams : LValue)
    (hnone : ∀ s, get_indicator_value md s itype iparams = none)
    (m : List (String × ℚ)) :
    ∀ acc : List (String × ℚ), m.foldl (fun sc p =>
      match get_indicator_value md p.1 itype iparams with
      | some v => sc ++ [(p.1, v)]
      | none => sc) acc = acc := by
  induction m with
  | nil => intro acc; rfl
  | cons p rest ih =>
    intro acc
    simp only [List.foldl_cons, hnone p.1]
    exact ih acc

theorem collectScores_all_none (ev : LValue → Except EvalErr Alist) (md : MarketData)
    (itype iparams : LValue)
    (hnone : ∀ s, get_indicator_value md s itype iparams = none) :
    ∀ (elems : List LValue) (scores : List (String × ℚ)),
      collectScores ev md itype iparams elems = .ok scores → scores = [] := by
  intro elems
  induction elems with
  | nil =>
    intro scores h
    cases h
    rfl
  | cons ae rest ih =>
    intro scores h
    unfold collectScores at h
    dsimp only at h
    rcases except_bind_ok.mp h with ⟨m, hev, h2⟩
    rcases except_bind_ok.mp h2 with ⟨more, hmore, hpure⟩
    have hsc : m.foldl (fun sc p =>
        match get_indicator_value md p.1 itype iparams with
        | some v => sc ++ [(p.1, v)]
        | none => sc) [] ++ more = scores := by
      simpa [pure, Except.pure] using hpure
    rw [scores_fold_none md itype iparams hnone m []] at hsc
    rw [← hsc, ih more hmore]
    rfl

theorem sortDesc_length (l : List (String × ℚ)) : (sortDesc l).length = l.length :=
  (sortDesc_perm l).length_eq

theorem sortAsc_length (l : List (String × ℚ)) : (sortAsc l).length = l.length :=
  (sortAsc_perm l).length_eq

theorem pyTake_all {α : Type} (c : Int) (l : List α) (hc : 0 ≤ c)
    (hlen : l.length ≤ c.toNat) : pyTake c l = l := by
  unfold pyTake
  rw [if_pos hc]
  exact List.take_of_length_le hlen

theorem pyTake_ne_nil {α : Type} (c : Int) (l : List α) (hc : 1 ≤ c) (hl : l ≠ []) :
    pyTake c l ≠ [] := by
  unfold pyTake
  rw [if_pos (by omega : (0 : Int) ≤ c)]
  intro h
  have hnz : c.toNat ≠ 0 := by omega
  rcases List.take_eq_nil_iff.mp h with h1 | h2
  · exact hnz h1
  · exact hl h2

theorem selMethod_default (sm : LValue)
    (hsm : ∀ m c r2, sm ≠ .list (m :: c :: r2)) :
    selMethod sm = (.str "select-top", .num 1) := by
  cases sm with
  | num q => rfl
  | str s => rfl
  | dict d => rfl
  | list l =>
    cases l with
    | nil => rfl
    | cons m t =>
      cases t with
      | nil => rfl
      | cons c r2 => exact absurd rfl (hsm m c r2)

theorem filter_eval_tag_bottom (ev : LValue → Except EvalErr Alist) (md : MarketData)
    (ic : LValue) (v : LValue) (cs : List LValue) (al : LValue) (rest : List LValue)
    (hv : isSelectTop v = false) :
    filter_eval ev md (ic :: .list (v :: cs) :: al :: rest)
      = filter_eval ev md (ic :: .list (.str "select-bottom" :: cs) :: al :: rest) := by
  cases cs with
  | nil => rfl
  | cons c cs' =>
    unfold filter_eval
    dsimp only [selMethod]
    rw [hv, show isSelectTop (.str "select-bottom") = false from rfl]

theorem filter_eval_default_sel (ev : LValue → Except EvalErr Alist) (md : MarketData)
    (ic sm al : LValue) (rest : List LValue)
    (hsm : ∀ m c r2, sm ≠ .list (m :: c :: r2)) :
    filter_eval ev md (ic :: sm :: al :: rest)
      = filter_eval ev md (ic :: .list [.str "select-top", .num 1] :: al :: rest) := by
  unfold filter_eval
  dsimp only
  rw [selMethod_default sm hsm]
  rfl

theorem filter_ok_all_none (ev : LValue → Except EvalErr Alist) (md : MarketData)
    (itype y : LValue) (icrest : List LValue) (sm al : LValue) (rest : List LValue)
    (r : Alist)
    (hnone : ∀ s, get_indicator_value md s itype (icrest.headD (.dict [])) = none)
    (h : filter_eval ev md (.list (itype :: y :: icrest) :: sm :: al :: rest) = .ok r) :
    r = [] := by
  unfold filter_eval at h
  dsimp only at h
  by_cases hf : falsy al = true
  · rw [if_pos hf] at h
    cases h
    rfl
  · rw [if_neg hf] at h
    rcases except_bind_ok.mp h with ⟨elems, hel, h2⟩
    rcases except_bind_ok.mp h2 with ⟨scores, hsc, h3⟩
    have hS : scores = [] := collectScores_all_none ev md itype _ hnone elems scores hsc
    subst hS
    simp only [if_pos rfl] at h3
    cases h3
    rfl

/-! ## Claim theorems -/

/-- C1: the claim states a dropped holding is never removed without its net
proceeds being credited to cash.  The code (backtester.py lines 610-624)
deletes the holding unconditionally but credits cash only when the trade
value reaches the minimum trade size or the day index is 0: on day 1, a
half-share of a $100 stock (trade value $49.975 < $100) is removed with no
credit, while the identical liquidation on day 0 credits $49.925025. -/
theorem claim_C1_liquidation_credit_skipped :
    sell_dropped_positions defaultFrictions 1 (fun _ => 100) [] 100 [("A", 1/2)]
        = (100, [])
      ∧ sell_dropped_positions defaultFrictions 0 (fun _ => 100) [] 100 [("A", 1/2)]
        = (5997001/40000, []) := by
  constructor
  · with_unfolding_all rfl
  · with_unfolding_all rfl

/-- C2: the claim states the very first rebalance is exempt from the
minimum-trade-size skip for every configured frequency.  The code exempts
only day index 0 (`i == 0`, backtester.py line 651); with frequency 2 the
first rebalance falls on day 1 (day 0 is gated off), where a $50 trade is
skipped — the identical trade executes when the day index is 0.  The same
day-1 gating also withholds the liquidation credit for a small dropped
position. -/
theorem claim_C2_first_rebalance_not_exempt :
    is_rebalance_day 2 0 = false
      ∧ is_rebalance_day 2 1 = true
      ∧ trade_one defaultFrictions 1 150 (fun _ => 100) (50, [("A", 1)]) ("A", 1)
          = .ok (50, [("A", 1)])
      ∧ trade_one defaultFrictions 0 150 (fun _ => 100) (50, [("A", 1)]) ("A", 1)
          = .ok (0, [("A", 3003001/2003001)])
      ∧ sell_dropped_positions defaultFrictions 1 (fun _ => 100) [] 200 [("B", 1/2)]
          = (200, []) := by
  refine ⟨rfl, rfl, ?_, ?_, ?_⟩ <;> with_unfolding_all rfl

/-- C9 counterexample: the root `["weight-specified", 0, assetA]` evaluates
to the map `{A: 0.0}` with total weight 0, and `get_target_portfolio`
returns that non-empty map unchanged instead of `{}`. -/
theorem counterexample_C9 :
    get_target_portfolio mdAB 10 wsZeroExpr = .ok [("A", 0)]
      ∧ ([("A", (0 : ℚ))] : Alist) ≠ []
      ∧ asum [("A", (0 : ℚ))] = 0 := by
  refine ⟨by with_unfolding_all rfl, by simp, by simp [asum]⟩

/-- C9 amended: the entry point renormalizes the evaluated map to total
weight exactly 1 whenever its total weight is positive; when the total
weight is not positive it returns the evaluated map unchanged (which is
`{}` only when the evaluator itself produced an empty map). -/
theorem claim_C9_amended : ∀ (md : MarketData) (fuel : ℕ) (root : LValue) (p : Alist),
    evaluate_expression md fuel root = .ok p →
    (0 < asum p →
      get_target_portfolio md fuel root = .ok (normalizeBy (asum p) p)
        ∧ asum (normalizeBy (asum p) p) = 1)
    ∧ (¬ 0 < asum p → get_target_portfolio md fuel root = .ok p) := by
  intro md fuel root p h
  constructor
  · intro hpos
    constructor
    · unfold get_target_portfolio
      rw [h]
      simp only [Bind.bind, Except.bind]
      rw [if_pos hpos]
    · rw [asum_normalizeBy]
      exact div_self (ne_of_gt hpos)
  · intro hneg
    unfold get_target_portfolio
    rw [h]
    simp only [Bind.bind, Except.bind]
    rw [if_neg hneg]

/-- C9 witness: the amended normalization behavior at a concrete root. -/
theorem claim_C9_witness :
    get_target_portfolio mdAB 3 assetExprA
        = .ok (normalizeBy (asum [("A", (1 : ℚ))]) [("A", (1 : ℚ))])
      ∧ asum (normalizeBy (asum [("A", (1 : ℚ))]) [("A", (1 : ℚ))]) = 1 :=
  (claim_C9_amended mdAB 3 assetExprA [("A", 1)] (by with_unfolding_all rfl)).1
    (by norm_num [asum])

/-- C6 counterexample: the expression `[assetA, assetB]`, whose head is the
list `assetA` and not a recognized operator, is silently evaluated to the
equal-weight allocation `{A: 0.5, B: 0.5}` instead of failing with an
unknown-operator error (composer_parser.py lines 311-330). -/
theorem counterexample_C6 :
    evaluate_expression mdAB 10 (.list [assetExprA, assetExprB])
      = .ok [("A", 1/2), ("B", 1/2)] := by
  with_unfolding_all rfl

/-- C6 amended: an expression whose head is none of the recognized
operators fails with the unknown-operator error, unless the fallback
applies: it contains two or more `asset` sub-lists (silently evaluated to
equal weights) or is a singleton list wrapping a list (evaluated
transparently). -/
theorem claim_C6_amended : ∀ (md : MarketData) (n : ℕ) (op : LValue) (args : List LValue),
    op ≠ .str "if" → op ≠ .str "weight-equal" → op ≠ .str "weight-specified" →
    op ≠ .str "asset" → op ≠ .str "group" → op ≠ .str "filter" →
    ¬ 1 < ((op :: args).filter isAssetExpr).length →
    (∀ inner, op :: args ≠ [.list inner]) →
    evaluate_expression md (n + 1) (.list (op :: args))
      = .error (.unknownOperator (opName op)) := by
  intro md n op args h1 h2 h3 h4 h5 h6 hcount hsingle
  cases op with
  | num q => exact fallback_unknown _ _ _ hcount hsingle
  | list l => exact fallback_unknown _ _ _ hcount hsingle
  | dict d => exact fallback_unknown _ _ _ hcount hsingle
  | str s =>
    have hs1 : ¬ (s = "if") := fun he => h1 (by rw [he])
    have hs2 : ¬ (s = "weight-equal") := fun he => h2 (by rw [he])
    have hs3 : ¬ (s = "weight-specified") := fun he => h3 (by rw [he])
    have hs4 : ¬ (s = "asset") := fun he => h4 (by rw [he])
    have hs5 : ¬ (s = "group") := fun he => h5 (by rw [he])
    have hs6 : ¬ (s = "filter") := fun he => h6 (by rw [he])
    have hred : evaluate_expression md (n + 1) (.list (.str s :: args))
        = fallback_eval (evaluate_expression md n) (.str s :: args) (opName (.str s)) := by
      unfold evaluate_expression
      dsimp only
      rw [if_neg hs1, if_neg hs2, if_neg hs3, if_neg hs4, if_neg hs5, if_neg hs6]
    rw [hred]
    exact fallback_unknown _ _ _ hcount hsingle

/-- C6 witness: an unrecognized operator string with no fallback shape
raises the unknown-operator error. -/
theorem claim_C6_witness :
    evaluate_expression mdAB 1 (.list [.str "bogus-operator"])
      = .error (.unknownOperator "bogus-operator") :=
  claim_C6_amended mdAB 0 (.str "bogus-operator") [] (by simp) (by simp) (by simp)
    (by simp) (by simp) (by simp) (by simp [isAssetExpr]) (by simp)

/-- C4: `weight-equal` combines branch results by summing each symbol's
contributions (duplicates accumulate, never overwrite) and renormalizes the
combined map; concretely, two branches yielding `{S: 1.0}` and one yielding
`{T: 1.0}` produce `{S: 2/3, T: 1/3}`, within 1e-3 of `{S: 0.667, T: 0.333}`. -/
theorem claim_C4_weight_equal_accumulates :
    (∀ (rs : List Alist) (s : String),
        agetD (combineSum rs) s = contrib (flattenA rs) s)
    ∧ (∀ (md : MarketData) (n : ℕ) (a : LValue) (bs : List LValue) (ms : List Alist),
        (a :: bs).mapM (evaluate_expression md n) = .ok ms →
        (ms.filter (fun m => decide (m ≠ []))) ≠ [] →
        0 < asum (combineSum (ms.filter (fun m => decide (m ≠ [])))) →
        evaluate_expression md (n + 1) (.list (.str "weight-equal" :: a :: bs))
          = .ok (normalizeBy (asum (combineSum (ms.filter (fun m => decide (m ≠ [])))))
              (combineSum (ms.filter (fun m => decide (m ≠ []))))))
    ∧ evaluate_expression mdAB 10 weDupExpr = .ok [("S", 2/3), ("T", 1/3)]
    ∧ |(2 : ℚ)/3 - 667/1000| ≤ 1/1000
    ∧ |(1 : ℚ)/3 - 333/1000| ≤ 1/1000 := by
  refine ⟨agetD_combineSum, ?_, by with_unfolding_all rfl, ?_, ?_⟩
  · intro md n a bs ms hmap hkept hpos
    rw [eval_weight_equal_unfold]
    unfold weight_equal_eval
    dsimp only
    rw [hmap]
    simp only [Bind.bind, Except.bind]
    rw [if_neg hkept, if_pos hpos]
  · rw [show (2 : ℚ)/3 - 667/1000 = -(1/3000) by norm_num, abs_neg,
      abs_of_nonneg (by norm_num : (0 : ℚ) ≤ 1/3000)]
    norm_num
  · rw [show (1 : ℚ)/3 - 333/1000 = 1/3000 by norm_num,
      abs_of_nonneg (by norm_num : (0 : ℚ) ≤ 1/3000)]
    norm_num

/-- C4 witness: the renormalized combination equation at a concrete
single-branch `weight-equal`. -/
theorem claim_C4_witness :
    evaluate_expression mdAB 3
        (.list [.str "weight-equal", .list [.str "asset", .str "S", .str "d"]])
      = .ok (normalizeBy
          (asum (combineSum ([[("S", (1 : ℚ))]].filter (fun m => decide (m ≠ [])))))
          (combineSum ([[("S", (1 : ℚ))]].filter (fun m => decide (m ≠ []))))) :=
  claim_C4_weight_equal_accumulates.2.1 mdAB 2
    (.list [.str "asset", .str "S", .str "d"]) [] [[("S", 1)]]
    (by with_unfolding_all rfl) (by simp)
    (by norm_num [combineSum, asum, aadd])

/-- C3 counterexample: `["weight-specified", 1, assetA, 1, assetA]` assigns
the same symbol twice; the overwrite keeps one entry but the normalizer
divides by the doubled total, producing the non-empty map `{A: 0.5}` whose
weights sum to 0.5, far outside 1e-6 of 1. -/
theorem counterexample_C3 :
    evaluate_expression mdAB 10 wsDupExpr = .ok [("A", 1/2)]
      ∧ ([("A", (1 : ℚ)/2)] : Alist) ≠ []
      ∧ ¬ |asum [("A", (1 : ℚ)/2)] - 1| ≤ 1/1000000 := by
  refine ⟨by with_unfolding_all rfl, by simp, ?_⟩
  rw [show asum [("A", (1 : ℚ)/2)] = 1/2 by norm_num [asum]]
  rw [show (1 : ℚ)/2 - 1 = -(1/2) by norm_num, abs_neg,
    abs_of_nonneg (by norm_num : (0 : ℚ) ≤ 1/2)]
  norm_num

/-- C3 amended: a `weight-equal` result whose branch results are all
non-negative is either empty or has non-negative weights summing exactly
to 1; a `weight-specified` result is either empty or sums exactly to 1 with
non-negative weights, provided every specified weight is positive and no
symbol is produced twice across the pairs (the counterexample shows the
duplicate-symbol and non-positive-weight cases genuinely fail). -/
theorem claim_C3_amended :
    (∀ (md : MarketData) (n : ℕ) (args : List LValue) (ms : List Alist) (r : Alist),
      args.mapM (evaluate_expression md n) = .ok ms →
      (∀ m ∈ ms, ∀ p ∈ m, 0 ≤ p.2) →
      evaluate_expression md (n + 1) (.list (.str "weight-equal" :: args)) = .ok r →
      r = [] ∨ ((∀ p ∈ r, 0 ≤ p.2) ∧ asum r = 1))
    ∧ (∀ (md : MarketData) (n : ℕ) (args : List LValue) (ms : List Alist) (r : Alist),
      (pairsOf args).mapM (fun p => evaluate_expression md n p.2) = .ok ms →
      (∀ p ∈ pairsOf args, ∃ w : ℚ, p.1 = .num w ∧ 0 < w) →
      ((flattenA ms).map Prod.fst).Nodup →
      evaluate_expression md (n + 1) (.list (.str "weight-specified" :: args)) = .ok r →
      r = [] ∨ ((∀ p ∈ r, 0 ≤ p.2) ∧ asum r = 1)) := by
  constructor
  · intro md n args ms r hmap hnn hr
    rw [eval_weight_equal_unfold] at hr
    unfold weight_equal_eval at hr
    cases args with
    | nil =>
      cases hr
      left
      rfl
    | cons a bs =>
      dsimp only at hr
      rw [hmap] at hr
      simp only [Bind.bind, Except.bind] at hr
      by_cases hk : (ms.filter (fun m => decide (m ≠ []))) = []
      · rw [if_pos hk] at hr
        cases hr
        left
        rfl
      · rw [if_neg hk] at hr
        by_cases hp : 0 < asum (combineSum (ms.filter (fun m => decide (m ≠ []))))
        · rw [if_pos hp] at hr
          cases hr
          right
          constructor
          · intro q hq
            rcases mem_normalizeBy hq with ⟨q0, hq0, hq0eq⟩
            rw [hq0eq]
            have h0 : 0 ≤ q0.2 :=
              combineSum_nonneg
                (fun m hm => hnn m (List.mem_of_mem_filter hm)) q0 hq0
            exact div_nonneg h0 (le_of_lt hp)
          · rw [asum_normalizeBy]
            exact div_self (ne_of_gt hp)
        · rw [if_neg hp] at hr
          cases hr
          left
          rfl
  · intro md n args ms r hmap hw hnd hr
    rw [eval_weight_specified_unfold] at hr
    unfold weight_specified_eval at hr
    rcases ws_foldlM_spec (evaluate_expression md n) (pairsOf args) ms [] 0 hmap hw
        (by simpa [akeys] using hnd) (by simp [asum]) (by simp)
      with ⟨st, hfold, hsum, hpos, hkeys⟩
    rw [hfold] at hr
    simp only [Bind.bind, Except.bind] at hr
    by_cases hp : 0 < st.2
    · rw [if_pos hp] at hr
      cases hr
      right
      constructor
      · intro q hq
        rcases mem_normalizeBy hq with ⟨q0, hq0, hq0eq⟩
        rw [hq0eq]
        exact div_nonneg (le_of_lt (hpos q0 hq0)) (le_of_lt hp)
      · rw [asum_normalizeBy, hsum]
        exact div_self (ne_of_gt hp)
    · rw [if_neg hp] at hr
      cases hr
      left
      by_contra hne
      exact hp (hsum ▸ asum_pos hne hpos)

/-- C3 witness: the amended weight-equal normalization at a concrete
single-branch input. -/
theorem claim_C3_witness : asum [("S", (1 : ℚ))] = 1 :=
  ((claim_C3_amended.1 mdAB 2 [.list [.str "asset", .str "S", .str "d"]]
      [[("S", 1)]] [("S", 1)]
      (by with_unfolding_all rfl)
      (by
        intro m hm p hp
        rcases List.mem_singleton.mp hm with rfl
        rcases List.mem_singleton.mp hp with rfl
        norm_num)
      (by with_unfolding_all rfl)).resolve_left (by simp)).2

/-- C5: given positive prices, non-negative target weights, sane friction
rates and a valid starting ledger, every step of the daily trade block
preserves the invariants: the liquidation pass yields a valid ledger, each
individual order of the rebalance loop preserves validity (so the invariant
holds after every order), and the whole daily block does. -/
theorem claim_C5_ledger_invariants : ∀ (fr : Frictions) (i : ℕ) (price : String → ℚ)
    (target : Alist) (cash : ℚ) (holdings : Alist),
    0 ≤ fr.transaction_cost_pct → fr.transaction_cost_pct ≤ 1 →
    0 ≤ fr.slippage_pct → fr.slippage_pct ≤ 1 →
    (∀ s, 0 < price s) → (∀ p ∈ target, 0 ≤ p.2) →
    0 ≤ cash → (∀ p ∈ holdings, 0 ≤ p.2) →
    ValidLedger (sell_dropped_positions fr i price (akeys target) cash holdings)
    ∧ (∀ (st : ℚ × Alist) (p : String × ℚ) (st' : ℚ × Alist), p ∈ target →
        ValidLedger st →
        trade_one fr i (portfolio_value price cash holdings) price st p = .ok st' →
        ValidLedger st')
    ∧ (∀ st', execute_rebalance fr i price target cash holdings = .ok st' →
        ValidLedger st') := by
  intro fr i price target cash holdings htc0 htc1 hsl0 hsl1 hpr hw hc hh
  have hpr' : ∀ s, 0 ≤ price s := fun s => le_of_lt (hpr s)
  have hcv : 0 ≤ portfolio_value price cash holdings :=
    portfolio_value_nonneg price hpr' holdings cash hc hh
  refine ⟨?_, ?_, ?_⟩
  · exact sell_dropped_valid fr i price (akeys target) hsl1 htc1 hpr' holdings cash hc hh
  · intro st p st' hp hv hone
    exact trade_one_valid fr i (portfolio_value price cash holdings) price st p
      htc0 htc1 hsl0 hsl1 (hpr p.1) (hw p hp) hcv hv st' hone
  · exact execute_rebalance_valid fr i price target cash holdings
      htc0 htc1 hsl0 hsl1 hpr hw hc hh

/-- C5 witness: the daily block at a concrete first-day input leaves a
valid ledger (all cash converted into a long position, cash exactly 0). -/
theorem claim_C5_witness :
    ValidLedger (0, [("A", (20000000 : ℚ)/2003001)]) :=
  (claim_C5_ledger_invariants defaultFrictions 0 (fun _ => 100) [("A", 1)] 1000 []
    (by norm_num [defaultFrictions, TRANSACTION_COST_PCT])
    (by norm_num [defaultFrictions, TRANSACTION_COST_PCT])
    (by norm_num [defaultFrictions, SLIPPAGE_PCT])
    (by norm_num [defaultFrictions, SLIPPAGE_PCT])
    (fun s => by norm_num)
    (by
      intro p hp
      rcases List.mem_singleton.mp hp with rfl
      norm_num)
    (by norm_num)
    (by simp)).2.2
    (0, [("A", (20000000 : ℚ)/2003001)]) (by with_unfolding_all rfl)

/-- C7: on candidates `{A: 30, B: 70}` a count-1 Top filter yields
`{B: 1.0}` and Bottom yields `{A: 1.0}`; a count larger than the number of
survivors selects all survivors with weight `1/surviving_count`; and the
selection sorts are permutations, ordered descending (Top) or ascending
(Bottom) by indicator value, stable on ties, with a too-large count taking
the whole sorted list. -/
theorem claim_C7_filter_selection :
    evaluate_expression mdAB 10 filterExprTop = .ok [("B", 1)]
    ∧ evaluate_expression mdAB 10 filterExprBottom = .ok [("A", 1)]
    ∧ evaluate_expression mdAB 10 filterExprOverflow = .ok [("B", 1/2), ("A", 1/2)]
    ∧ (∀ l : List (String × ℚ), List.Perm (sortDesc l) l ∧ List.Perm (sortAsc l) l)
    ∧ (∀ l : List (String × ℚ),
        List.Pairwise (fun a b : String × ℚ => b.2 ≤ a.2) (sortDesc l)
        ∧ List.Pairwise (fun a b : String × ℚ => a.2 ≤ b.2) (sortAsc l))
    ∧ (∀ (v : ℚ) (l : List (String × ℚ)),
        filterVal v (sortDesc l) = filterVal v l ∧ filterVal v (sortAsc l) = filterVal v l)
    ∧ (∀ (c : Int) (l : List (String × ℚ)), 0 ≤ c → l.length ≤ c.toNat →
        pyTake c (sortDesc l) = sortDesc l ∧ pyTake c (sortAsc l) = sortAsc l
        ∧ (sortDesc l).length = l.length ∧ (sortAsc l).length = l.length) := by
  refine ⟨by with_unfolding_all rfl, by with_unfolding_all rfl, by with_unfolding_all rfl,
    fun l => ⟨sortDesc_perm l, sortAsc_perm l⟩,
    fun l => ⟨sortDesc_pairwise l, sortAsc_pairwise l⟩,
    fun v l => ⟨filterVal_sortDesc v l, filterVal_sortAsc v l⟩, ?_⟩
  intro c l hc hlen
  exact ⟨pyTake_all c (sortDesc l) hc (by rw [sortDesc_length]; exact hlen),
    pyTake_all c (sortAsc l) hc (by rw [sortAsc_length]; exact hlen),
    sortDesc_length l, sortAsc_length l⟩

/-- C7 witness: the overflow-count selection behavior at a concrete list. -/
theorem claim_C7_witness :
    pyTake 5 (sortDesc [("A", (30 : ℚ))]) = sortDesc [("A", (30 : ℚ))]
      ∧ pyTake 5 (sortAsc [("A", (30 : ℚ))]) = sortAsc [("A", (30 : ℚ))]
      ∧ (sortDesc [("A", (30 : ℚ))]).length = [("A", (30 : ℚ))].length
      ∧ (sortAsc [("A", (30 : ℚ))]).length = [("A", (30 : ℚ))].length :=
  claim_C7_filter_selection.2.2.2.2.2.2 5 [("A", 30)] (by norm_num) (by norm_num)

/-- C10: an unrecognized selection-method tag never raises — any tag other
than `select-top` behaves exactly like Bottom mode (ascending sort), and a
selection method that is not a list of at least two elements is treated as
`select-top` with count 1; concretely, tag `garbage-tag` selects the
lowest-RSI candidate A without error, and a numeric selection method picks
the single top candidate B. -/
theorem claim_C10_selection_method_dispatch :
    (∀ (ev : LValue → Except EvalErr Alist) (md : MarketData) (ic v : LValue)
        (cs : List LValue) (al : LValue) (rest : List LValue),
        isSelectTop v = false →
        filter_eval ev md (ic :: .list (v :: cs) :: al :: rest)
          = filter_eval ev md (ic :: .list (.str "select-bottom" :: cs) :: al :: rest))
    ∧ (∀ (ev : LValue → Except EvalErr Alist) (md : MarketData) (ic sm al : LValue)
        (rest : List LValue),
        (∀ m c r2, sm ≠ .list (m :: c :: r2)) →
        filter_eval ev md (ic :: sm :: al :: rest)
          = filter_eval ev md (ic :: .list [.str "select-top", .num 1] :: al :: rest))
    ∧ evaluate_expression mdAB 10 filterExprGarbage = .ok [("A", 1)]
    ∧ evaluate_expression mdAB 10 filterExprNonListSel = .ok [("B", 1)] := by
  exact ⟨fun ev md ic v cs al rest hv => filter_eval_tag_bottom ev md ic v cs al rest hv,
    fun ev md ic sm al rest hsm => filter_eval_default_sel ev md ic sm al rest hsm,
    by with_unfolding_all rfl, by with_unfolding_all rfl⟩

/-- C10 witness: an arbitrary unrecognized tag gives the same filter result
as the Bottom mode at a concrete input. -/
theorem claim_C10_witness :
    filter_eval (evaluate_expression mdAB 9) mdAB
        [rsiCriteria, .list [.str "zzz", .num 1], .list [assetExprA, assetExprB]]
      = filter_eval (evaluate_expression mdAB 9) mdAB
        [rsiCriteria, .list [.str "select-bottom", .num 1], .list [assetExprA, assetExprB]] :=
  claim_C10_selection_method_dispatch.1 (evaluate_expression mdAB 9) mdAB rsiCriteria
    (.str "zzz") [.num 1] (.list [assetExprA, assetExprB]) [] (by rfl)

theorem sortDesc_ne_nil {l : List (String × ℚ)} (h : l ≠ []) : sortDesc l ≠ [] := by
  intro he
  apply h
  have hlen := sortDesc_length l
  rw [he] at hlen
  exact List.length_eq_zero.mp hlen.symm

theorem sortAsc_ne_nil {l : List (String × ℚ)} (h : l ≠ []) : sortAsc l ≠ [] := by
  intro he
  apply h
  have hlen := sortAsc_length l
  rw [he] at hlen
  exact List.length_eq_zero.mp hlen.symm

/-- C8 counterexample: a `filter` with `["select-top", 0]` returns `{}`
even though both candidates carry available indicator values — refuting
"returns {} if and only if every candidate is dropped". -/
theorem counterexample_C8 :
    evaluate_expression mdAB 10 filterExprZero = .ok []
      ∧ get_indicator_value mdAB "A" (.str "rsi") (.dict []) = some 30
      ∧ get_indicator_value mdAB "B" (.str "rsi") (.dict []) = some 70 := by
  refine ⟨by with_unfolding_all rfl, by with_unfolding_all rfl, by with_unfolding_all rfl⟩

/-- C8 amended: a candidate with an unavailable indicator value is dropped
silently (a filter over A-without-data and B-with-data returns `{B: 1.0}`
without aborting); when every candidate is dropped the filter returns `{}`;
conversely, with a positive integer count and a non-empty score list the
filter result is non-empty, so `{}` then occurs only when every candidate
was dropped; and, in contrast, a Condition touching an unavailable symbol
aborts the whole evaluation with a data-unavailable error. -/
theorem claim_C8_amended :
    evaluate_expression mdDrop 10 filterExprTop = .ok [("B", 1)]
    ∧ (∀ (md : MarketData) (n : ℕ) (itype y : LValue) (icrest : List LValue)
        (sm al : LValue) (rest : List LValue) (r : Alist),
        (∀ s, get_indicator_value md s itype (icrest.headD (.dict [])) = none) →
        evaluate_expression md (n + 1)
            (.list (.str "filter" :: .list (itype :: y :: icrest) :: sm :: al :: rest))
          = .ok r →
        r = [])
    ∧ (∀ (md : MarketData) (n : ℕ) (itype y : LValue) (icrest : List LValue)
        (mtag : LValue) (cq : ℚ) (smrest : List LValue) (al : LValue)
        (rest : List LValue) (elems : List LValue) (scores : List (String × ℚ))
        (r : Alist),
        falsy al = false →
        iterElems al = .ok elems →
        collectScores (evaluate_expression md n) md itype (icrest.headD (.dict []))
            elems = .ok scores →
        scores ≠ [] →
        cq.den = 1 → 1 ≤ cq.num →
        evaluate_expression md (n + 1)
            (.list (.str "filter" :: .list (itype :: y :: icrest)
              :: .list (mtag :: .num cq :: smrest) :: al :: rest))
          = .ok r →
        r ≠ [])
    ∧ evaluate_expression mdAB 10 ifUnavailExpr = .error (.dataUnavailable "Z") := by
  refine ⟨by with_unfolding_all rfl, ?_, ?_, by with_unfolding_all rfl⟩
  · intro md n itype y icrest sm al rest r hnone hr
    rw [eval_filter_unfold] at hr
    exact filter_ok_all_none (evaluate_expression md n) md itype y icrest sm al rest r
      hnone hr
  · intro md n itype y icrest mtag cq smrest al rest elems scores r
      hfalsy hel hsc hscne hden hcount hr
    rw [eval_filter_unfold] at hr
    unfold filter_eval at hr
    dsimp only at hr
    rw [hfalsy] at hr
    rw [if_neg (by simp)] at hr
    rw [hel] at hr
    simp only [Bind.bind, Except.bind] at hr
    rw [hsc] at hr
    simp only [Bind.bind, Except.bind] at hr
    rw [if_neg hscne] at hr
    dsimp only [selMethod] at hr
    unfold sliceCount at hr
    dsimp only at hr
    rw [if_pos hden] at hr
    dsimp only at hr
    have hsortne : (if isSelectTop mtag = true then sortDesc scores else sortAsc scores)
        ≠ [] := by
      split
      · exact sortDesc_ne_nil hscne
      · exact sortAsc_ne_nil hscne
    have hselne : pyTake cq.num
        (if isSelectTop mtag = true then sortDesc scores else sortAsc scores) ≠ [] :=
      pyTake_ne_nil cq.num _ hcount hsortne
    rw [if_neg hselne] at hr
    cases hr
    exact equalWeightMap_ne_nil hselne

/-- C8 witness: with no market data at all, every candidate is dropped and
the filter returns the empty allocation. -/
theorem claim_C8_witness : ([] : Alist) = [] :=
  claim_C8_amended.2.1 mdNone 9 (.str "rsi") (.dict [(":window", .num 10)]) []
    (.list [.str "select-top", .num 1]) (.list [assetExprA, assetExprB]) [] []
    (fun s => rfl) (by with_unfolding_all rfl)
